import Mathlib

/-
Verification development for the single-value Paxos implementation in
src/algorithms/paxos.py.  The Python classes ProposalNumber, Proposer,
Acceptor and Learner are embedded as Lean structures and pure functions;
Python object mutation becomes explicit state passing, Python None becomes
Option.none, and a method returning an optional Message becomes a pair of
the updated state and an Option Msg.
-/

namespace Paxos

/-- Embedding of class ProposalNumber: a pair of sequence number and node id,
compared lexicographically exactly as the Python tuple comparison does. -/
structure ProposalNumber where
  seq : Nat
  node_id : Nat
deriving DecidableEq, Repr

/-- Python: (a.seq, a.node_id) < (b.seq, b.node_id), tuple comparison. -/
def pnLt (a b : ProposalNumber) : Bool :=
  a.seq < b.seq || (a.seq == b.seq && a.node_id < b.node_id)

/-- Python: (a.seq, a.node_id) <= (b.seq, b.node_id), tuple comparison. -/
def pnLe (a b : ProposalNumber) : Bool :=
  a.seq < b.seq || (a.seq == b.seq && a.node_id ≤ b.node_id)

/-- Embedding of the Message dataclass.  The value and prev_accepted fields
may be Python None; a stored value is itself Option V because the protocol
never restricts the proposed value away from None. -/
structure Msg (V : Type) where
  msg_type : String
  sender : Nat
  receiver : Nat
  proposal_num : Nat
  value : Option V
  prev_accepted : Option (Nat × Option V)
deriving DecidableEq, Repr

/-- Mutable state of class Acceptor: node_id, highest_prepare (the promised
number, initially None) and accepted (the pair of number and value,
initially None). -/
structure AcceptorState (V : Type) where
  node_id : Nat
  highest_prepare : Option ProposalNumber
  accepted : Option (ProposalNumber × Option V)
deriving DecidableEq, Repr

/-- Guard of Acceptor.prepare: highest_prepare is None or proposal_num is
strictly greater than highest_prepare. -/
def prepareGuard {V : Type} (a : AcceptorState V) (n : ProposalNumber) : Bool :=
  a.highest_prepare.all (fun hp => pnLt hp n)

/-- Embedding of Acceptor.prepare.  On success it sets highest_prepare to n
and returns a PROMISE message whose prev_accepted field packs only the seq
of the previously accepted number together with the value; on failure it
returns None and leaves the state untouched. -/
def prepare {V : Type} (a : AcceptorState V) (n : ProposalNumber) :
    AcceptorState V × Option (Msg V) :=
  if prepareGuard a n then
    (⟨a.node_id, some n, a.accepted⟩,
     some ⟨"PROMISE", a.node_id, 0, n.seq, none,
           a.accepted.map (fun pr => (pr.1.seq, pr.2))⟩)
  else (a, none)

/-- Guard of Acceptor.accept: highest_prepare is None or proposal_num is
greater than or equal to highest_prepare. -/
def acceptGuard {V : Type} (a : AcceptorState V) (n : ProposalNumber) : Bool :=
  a.highest_prepare.all (fun hp => pnLe hp n)

/-- Embedding of Acceptor.accept.  On success it stores (n, v) in accepted,
leaves highest_prepare unchanged, and returns an ACCEPTED message carrying
n.seq and v; on failure it returns None and leaves the state untouched. -/
def accept {V : Type} (a : AcceptorState V) (n : ProposalNumber) (v : Option V) :
    AcceptorState V × Option (Msg V) :=
  if acceptGuard a n then
    (⟨a.node_id, a.highest_prepare, some (n, v)⟩,
     some ⟨"ACCEPTED", a.node_id, 0, n.seq, v, none⟩)
  else (a, none)

/-- Loop body of Proposer._choose_value_following_paxos_constraint: running
maximum (an Int, started at -1) and the value reported with it. -/
def chooseLoop {V : Type} (promises : List (Msg V)) (h : Int) (hv : Option V) :
    Int × Option V :=
  match promises with
  | [] => (h, hv)
  | p :: ps =>
    match p.prev_accepted with
    | none => chooseLoop ps h hv
    | some (pn, pv) =>
      if h < (pn : Int) then chooseLoop ps (pn : Int) pv else chooseLoop ps h hv

/-- Embedding of Proposer._choose_value_following_paxos_constraint. -/
def chooseValue {V : Type} (original : Option V) (promises : List (Msg V)) :
    Option V :=
  match (chooseLoop promises (-1) none).2 with
  | some v => some v
  | none => original

/-- The previously-accepted pairs carried by a list of promises, in list
order. -/
def prevPairs {V : Type} (promises : List (Msg V)) : List (Nat × Option V) :=
  promises.filterMap (fun p => p.prev_accepted)

/-- Mutable state of class Proposer: node_id and the sequence counter. -/
structure ProposerState where
  node_id : Nat
  seq : Nat
deriving DecidableEq, Repr

/-- Phase 1 of Proposer.propose: send prepare to every acceptor in order,
threading the acceptor states, and collect the non-None responses in
order. -/
def phase1 {V : Type} (accs : List (AcceptorState V)) (n : ProposalNumber) :
    List (AcceptorState V) × List (Msg V) :=
  match accs with
  | [] => ([], [])
  | a :: rest =>
    let r := prepare a n
    let ps := phase1 rest n
    (r.1 :: ps.1,
     match r.2 with
     | some m => m :: ps.2
     | none => ps.2)

/-- Phase 2 of Proposer.propose: send accept only to the acceptors whose
node_id appears among the promise senders, threading states and collecting
the non-None responses in order. -/
def phase2 {V : Type} (accs : List (AcceptorState V)) (n : ProposalNumber)
    (v : Option V) (senders : List Nat) :
    List (AcceptorState V) × List (Msg V) :=
  match accs with
  | [] => ([], [])
  | a :: rest =>
    if senders.contains a.node_id then
      let r := accept a n v
      let rs := phase2 rest n v senders
      (r.1 :: rs.1,
       match r.2 with
       | some m => m :: rs.2
       | none => rs.2)
    else
      let rs := phase2 rest n v senders
      (a :: rs.1, rs.2)

/-- Embedding of Proposer.propose: increment seq, build the proposal number,
run Phase 1 against all acceptors, test the majority, choose the final
value under the Paxos constraint, run Phase 2 against the promisers, and
return the updated proposer, the updated acceptors, and the consensus value
(None when either phase fails to reach the majority). -/
def propose {V : Type} (p : ProposerState) (value : Option V)
    (accs : List (AcceptorState V)) :
    ProposerState × List (AcceptorState V) × Option (Option V) :=
  let p2 : ProposerState := ⟨p.node_id, p.seq + 1⟩
  let n : ProposalNumber := ⟨p2.seq, p2.node_id⟩
  let majority := accs.length / 2 + 1
  let ph1 := phase1 accs n
  if ph1.2.length < majority then (p2, ph1.1, none)
  else
    let final_value := chooseValue value ph1.2
    let ph2 := phase2 ph1.1 n final_value (ph1.2.map (fun m => m.sender))
    if majority ≤ ph2.2.length then (p2, ph2.1, some final_value)
    else (p2, ph2.1, none)

/-- Events an Acceptor can process: a prepare or an accept call. -/
inductive AccEvent (V : Type) where
  | prep (n : ProposalNumber)
  | acc (n : ProposalNumber) (v : Option V)
deriving DecidableEq, Repr

/-- One Acceptor call, keeping only the state. -/
def stepAcc {V : Type} (a : AcceptorState V) : AccEvent V → AcceptorState V
  | .prep n => (prepare a n).1
  | .acc n v => (accept a n v).1

/-- A finite sequence of Acceptor calls, keeping only the state. -/
def runAcc {V : Type} (a : AcceptorState V) : List (AccEvent V) → AcceptorState V
  | [] => a
  | e :: es => runAcc (stepAcc a e) es

/-- Mutable state of class Learner: the values dict, embedded as an
insertion-ordered association list from acceptor id to last reported
value (Python dicts preserve insertion order). -/
def learnUpd {V : Type} [DecidableEq V] (m : List (Nat × V)) (aid : Nat) (v : V) :
    List (Nat × V) :=
  if m.any (fun p => p.1 == aid) then
    m.map (fun p => if p.1 == aid then (aid, v) else p)
  else m ++ [(aid, v)]

/-- The Learner map obtained by a sequence of learn calls starting from the
empty dict. -/
def buildMap {V : Type} [DecidableEq V] (calls : List (Nat × V)) : List (Nat × V) :=
  calls.foldl (fun m c => learnUpd m c.1 c.2) []

/-- One step of the value_counts accumulation in Learner.get_consensus:
increment the count of v if present, else append (v, 1) (Python dict
insertion order). -/
def bumpCount {V : Type} [DecidableEq V] (cs : List (V × Nat)) (v : V) :
    List (V × Nat) :=
  if cs.any (fun c => c.1 == v) then
    cs.map (fun c => if c.1 == v then (c.1, c.2 + 1) else c)
  else cs ++ [(v, 1)]

/-- The value_counts dict built by Learner.get_consensus from the values
map. -/
def buildCounts {V : Type} [DecidableEq V] (m : List (Nat × V)) : List (V × Nat) :=
  m.foldl (fun cs p => bumpCount cs p.2) []

/-- Embedding of Learner.get_consensus: None on the empty map, otherwise the
first value in value_counts insertion order whose count reaches
total_acceptors div 2 + 1, else None. -/
def getConsensus {V : Type} [DecidableEq V] (m : List (Nat × V)) (total : Nat) :
    Option V :=
  if m.isEmpty then none
  else
    match (buildCounts m).find? (fun c => total / 2 + 1 ≤ c.2) with
    | some c => some c.1
    | none => none

/-- Number of entries of the Learner map that report value v. -/
def countVal {V : Type} [DecidableEq V] (m : List (Nat × V)) (v : V) : Nat :=
  (m.filter (fun p => p.2 == v)).length

/-- Three fresh acceptors, as in the competing-proposers scenario. -/
def accsABC : List (AcceptorState String) :=
  [⟨10, none, none⟩, ⟨11, none, none⟩, ⟨12, none, none⟩]

/-- First round of the competing-proposers scenario: proposer 1 proposes A. -/
def round1 : ProposerState × List (AcceptorState String) × Option (Option String) :=
  propose ⟨1, 0⟩ (some "A") accsABC

/-- Second round: proposer 2 proposes B against the acceptors left by round
one. -/
def round2 : ProposerState × List (AcceptorState String) × Option (Option String) :=
  propose ⟨2, 0⟩ (some "B") round1.2.1

/-- Acceptor invariant A1 of the spec, as a predicate on a state: whenever
both fields are set, the accepted proposal number is at most the promised
one. -/
def AccInvA1 {V : Type} (a : AcceptorState V) : Prop :=
  ∀ pr : ProposalNumber × Option V, a.accepted = some pr →
    ∃ p, a.highest_prepare = some p ∧ pnLe pr.1 p = true

/-- Traces in which every accept call carries a number the acceptor has
already promised at least as high as the promise itself: at each accept
event the current promise is set and dominates the number. -/
def GoodTrace {V : Type} (a : AcceptorState V) : List (AccEvent V) → Prop
  | [] => True
  | .prep n :: es => GoodTrace (stepAcc a (.prep n)) es
  | .acc n v :: es =>
      (∃ m, a.highest_prepare = some m ∧ pnLe n m = true) ∧
      GoodTrace (stepAcc a (.acc n v)) es

/-- Two promises reporting previously accepted pairs that tie on the packed
sequence number 3 but carry different values. -/
def tiePromises : List (Msg String) :=
  [⟨"PROMISE", 10, 0, 9, none, some (3, some "X")⟩,
   ⟨"PROMISE", 11, 0, 9, none, some (3, some "Y")⟩]

/-- Relation between a prefix of the Learner map and the value_counts
accumulator built from it: every entry counts exactly the occurrences of
its value, every occurring value has an entry, and the keys are distinct. -/
def CountsOk {V : Type} [DecidableEq V] (m : List (Nat × V))
    (cs : List (V × Nat)) : Prop :=
  (∀ vc ∈ cs, vc.2 = countVal m vc.1 ∧ 0 < vc.2) ∧
  (∀ v, 0 < countVal m v → ∃ c, (v, c) ∈ cs) ∧
  (cs.map Prod.fst).Nodup

theorem pnLt_iff {a b : ProposalNumber} :
    pnLt a b = true ↔ a.seq < b.seq ∨ (a.seq = b.seq ∧ a.node_id < b.node_id) := by
  simp [pnLt]

theorem pnLe_iff {a b : ProposalNumber} :
    pnLe a b = true ↔ a.seq < b.seq ∨ (a.seq = b.seq ∧ a.node_id ≤ b.node_id) := by
  simp [pnLe]

theorem pnLe_refl (a : ProposalNumber) : pnLe a a = true := by
  rw [pnLe_iff]; omega

theorem pnLe_trans {a b c : ProposalNumber} (h1 : pnLe a b = true)
    (h2 : pnLe b c = true) : pnLe a c = true := by
  rw [pnLe_iff] at h1 h2 ⊢; omega

theorem pnLe_of_pnLt {a b : ProposalNumber} (h : pnLt a b = true) :
    pnLe a b = true := by
  rw [pnLt_iff] at h; rw [pnLe_iff]; omega

theorem pnLt_irrefl (a : ProposalNumber) : pnLt a a = false := by
  have : ¬ pnLt a a = true := by rw [pnLt_iff]; omega
  exact Bool.not_eq_true _ |>.mp this

/-- C2: starting from three fresh acceptors, proposer 1 proposes A and wins
both phases; proposer 2 then proposes B with the higher number (1, 2) and
its propose call returns A, so the chosen value stays A. -/
theorem c2_competing_proposers :
    round1.2.2 = some (some "A") ∧
    round2.2.2 = some (some "A") ∧
    pnLt ⟨1, 1⟩ ⟨1, 2⟩ = true :=
  ⟨rfl, rfl, rfl⟩

/-- C3 counterexample: the claim says a successful accept sets promised to
the incoming number, but the code leaves highest_prepare untouched: after
accept (2, 1) on an acceptor that promised (1, 1) the promise is still
(1, 1). -/
theorem c3_counterexample :
    acceptGuard (⟨7, some ⟨1, 1⟩, none⟩ : AcceptorState String) ⟨2, 1⟩ = true ∧
    (accept (⟨7, some ⟨1, 1⟩, none⟩ : AcceptorState String) ⟨2, 1⟩
      (some "A")).1.highest_prepare = some ⟨1, 1⟩ ∧
    some (⟨1, 1⟩ : ProposalNumber) ≠ some (⟨2, 1⟩ : ProposalNumber) :=
  ⟨rfl, rfl, by decide⟩

/-- C3 amended: if n is at least the promised number (or no promise is set),
accept stores (n, v) in accepted, leaves the promised number unchanged, and
returns an ACCEPTED message carrying n.seq and v; otherwise it returns None
with the state untouched. -/
theorem c3_accept_behavior {V : Type} (a : AcceptorState V) (n : ProposalNumber)
    (v : Option V) :
    (acceptGuard a n = true →
      accept a n v = (⟨a.node_id, a.highest_prepare, some (n, v)⟩,
        some ⟨"ACCEPTED", a.node_id, 0, n.seq, v, none⟩)) ∧
    (acceptGuard a n = false → accept a n v = (a, none)) := by
  constructor <;> intro h <;> simp [accept, h]

/-- C3 witness: the amended accept behavior at concrete inputs, one
successful and one rejected call. -/
theorem c3_witness :
    accept (⟨7, some ⟨1, 1⟩, none⟩ : AcceptorState String) ⟨2, 1⟩ (some "A")
      = (⟨7, some ⟨1, 1⟩, some (⟨2, 1⟩, some "A")⟩,
         some ⟨"ACCEPTED", 7, 0, 2, some "A", none⟩) ∧
    accept (⟨7, some ⟨5, 2⟩, none⟩ : AcceptorState String) ⟨2, 1⟩ (some "A")
      = (⟨7, some ⟨5, 2⟩, none⟩, none) :=
  ⟨(c3_accept_behavior _ _ _).1 rfl, (c3_accept_behavior _ _ _).2 rfl⟩

theorem step_promised_mono {V : Type} (a : AcceptorState V) (e : AccEvent V)
    (p : ProposalNumber) (h : a.highest_prepare = some p) :
    ∃ q, (stepAcc a e).highest_prepare = some q ∧ pnLe p q = true := by
  cases e with
  | prep n =>
    cases hg : prepareGuard a n with
    | true =>
      refine ⟨n, by simp [stepAcc, prepare, hg], ?_⟩
      have hlt : pnLt p n = true := by
        simp [prepareGuard, h] at hg
        exact hg
      exact pnLe_of_pnLt hlt
    | false => exact ⟨p, by simp [stepAcc, prepare, hg, h], pnLe_refl p⟩
  | acc n v =>
    cases hg : acceptGuard a n with
    | true => exact ⟨p, by simp [stepAcc, accept, hg, h], pnLe_refl p⟩
    | false => exact ⟨p, by simp [stepAcc, accept, hg, h], pnLe_refl p⟩

/-- C5 (invariant A2): across any finite sequence of prepare and accept
calls, once the promised number is set it stays set and never decreases. -/
theorem c5_promised_monotone {V : Type} (a : AcceptorState V)
    (es : List (AccEvent V)) (p : ProposalNumber)
    (h : a.highest_prepare = some p) :
    ∃ q, (runAcc a es).highest_prepare = some q ∧ pnLe p q = true := by
  induction es generalizing a p with
  | nil => exact ⟨p, h, pnLe_refl p⟩
  | cons e es ih =>
    obtain ⟨q, hq, hpq⟩ := step_promised_mono a e p h
    obtain ⟨r, hr, hqr⟩ := ih (stepAcc a e) q hq
    exact ⟨r, hr, pnLe_trans hpq hqr⟩

/-- C5 witness: an acceptor that promised (1, 1) retains a promise at least
(1, 1) after a further prepare call. -/
theorem c5_witness :
    ∃ q, (runAcc (⟨7, some ⟨1, 1⟩, none⟩ : AcceptorState String)
      [AccEvent.prep ⟨3, 2⟩]).highest_prepare = some q ∧
      pnLe ⟨1, 1⟩ q = true :=
  c5_promised_monotone _ _ ⟨1, 1⟩ rfl

/-- C6 counterexample: resending prepare (1, 1) right after a granted
prepare (1, 1) does not yield the same response: the first call returns a
PROMISE message and the duplicate returns None. -/
theorem c6_counterexample :
    (prepare (⟨7, none, none⟩ : AcceptorState String) ⟨1, 1⟩).2
      = some ⟨"PROMISE", 7, 0, 1, none, none⟩ ∧
    (prepare (prepare (⟨7, none, none⟩ : AcceptorState String) ⟨1, 1⟩).1
      ⟨1, 1⟩).2 = none ∧
    some (⟨"PROMISE", 7, 0, 1, none, none⟩ : Msg String) ≠ none :=
  ⟨rfl, rfl, by decide⟩

/-- C6 amended: a duplicate accept (n, v) returns the same response and the
same state as the first call, but a duplicate prepare (n) leaves the state
unchanged and always returns None, because the prepare guard is strict. -/
theorem c6_idempotence {V : Type} (a : AcceptorState V) (n : ProposalNumber)
    (v : Option V) :
    accept (accept a n v).1 n v = accept a n v ∧
    prepare (prepare a n).1 n = ((prepare a n).1, none) := by
  constructor
  · cases hg : acceptGuard a n with
    | true =>
      have hg2 : acceptGuard
          (⟨a.node_id, a.highest_prepare, some (n, v)⟩ : AcceptorState V) n
          = true := hg
      simp [accept, hg, hg2]
    | false => simp [accept, hg]
  · cases hg : prepareGuard a n with
    | true =>
      have hg2 : prepareGuard
          (⟨a.node_id, some n, a.accepted⟩ : AcceptorState V) n = false := by
        simp [prepareGuard, pnLt_irrefl]
      simp [prepare, hg, hg2]
    | false => simp [prepare, hg]

/-- C7 counterexample: the claim says a rejection carries the promised
number and differs from absence of a response, but a rejected prepare or
accept returns None, which carries nothing. -/
theorem c7_counterexample :
    prepareGuard (⟨8, some ⟨5, 2⟩, none⟩ : AcceptorState String) ⟨3, 1⟩ = false ∧
    (prepare (⟨8, some ⟨5, 2⟩, none⟩ : AcceptorState String) ⟨3, 1⟩).2 = none ∧
    (accept (⟨8, some ⟨5, 2⟩, none⟩ : AcceptorState String) ⟨3, 1⟩
      (some "B")).2 = none :=
  ⟨rfl, rfl, rfl⟩

/-- C7 amended: when an acceptor rejects a prepare or an accept it returns
None and leaves its state unchanged; the caller receives no promised number
and cannot tell the rejection from a lost response. -/
theorem c7_rejection_shape {V : Type} (a : AcceptorState V) (n : ProposalNumber)
    (v : Option V) :
    (prepareGuard a n = false → prepare a n = (a, none)) ∧
    (acceptGuard a n = false → accept a n v = (a, none)) := by
  constructor <;> intro h <;> simp [prepare, accept, h]

/-- C7 witness: the amended rejection shape at a concrete rejected prepare
and a concrete rejected accept. -/
theorem c7_witness :
    prepare (⟨8, some ⟨5, 2⟩, none⟩ : AcceptorState String) ⟨3, 1⟩
      = (⟨8, some ⟨5, 2⟩, none⟩, none) ∧
    accept (⟨8, some ⟨5, 2⟩, none⟩ : AcceptorState String) ⟨3, 1⟩ (some "B")
      = (⟨8, some ⟨5, 2⟩, none⟩, none) :=
  ⟨(c7_rejection_shape _ _ (some "B")).1 rfl, (c7_rejection_shape _ _ _).2 rfl⟩

/-- C9: whenever prepare or accept returns None (a rejection), the acceptor
state after the call is exactly the state before it. -/
theorem c9_rejection_preserves_state {V : Type} (a : AcceptorState V)
    (n : ProposalNumber) (v : Option V) :
    ((prepare a n).2 = none → (prepare a n).1 = a) ∧
    ((accept a n v).2 = none → (accept a n v).1 = a) := by
  constructor
  · intro h
    cases hg : prepareGuard a n with
    | true => simp [prepare, hg] at h
    | false => simp [prepare, hg]
  · intro h
    cases hg : acceptGuard a n with
    | true => simp [accept, hg] at h
    | false => simp [accept, hg]

/-- C9 witness: a concrete rejected prepare and a concrete rejected accept
both leave the acceptor state untouched. -/
theorem c9_witness :
    (prepare (⟨9, some ⟨5, 2⟩, none⟩ : AcceptorState String) ⟨4, 1⟩).1
      = ⟨9, some ⟨5, 2⟩, none⟩ ∧
    (accept (⟨9, some ⟨5, 2⟩, none⟩ : AcceptorState String) ⟨4, 1⟩
      (some "B")).1 = ⟨9, some ⟨5, 2⟩, none⟩ :=
  ⟨(c9_rejection_preserves_state _ _ (some "B")).1 rfl,
   (c9_rejection_preserves_state _ _ _).2 rfl⟩

/-- C4 counterexample: after prepare (1, 1) followed by accept (5, 2), both
fields are set but the accepted number (5, 2) exceeds the promised number
(1, 1), because accept never raises highest_prepare. -/
theorem c4_counterexample :
    (runAcc (⟨10, none, none⟩ : AcceptorState String)
      [AccEvent.prep ⟨1, 1⟩, AccEvent.acc ⟨5, 2⟩ (some "v")]).highest_prepare
      = some ⟨1, 1⟩ ∧
    (runAcc (⟨10, none, none⟩ : AcceptorState String)
      [AccEvent.prep ⟨1, 1⟩, AccEvent.acc ⟨5, 2⟩ (some "v")]).accepted
      = some (⟨5, 2⟩, some "v") ∧
    pnLe ⟨5, 2⟩ ⟨1, 1⟩ = false :=
  ⟨rfl, rfl, rfl⟩

theorem stepPrep_inv {V : Type} (a : AcceptorState V) (n : ProposalNumber)
    (hinv : AccInvA1 a) : AccInvA1 (stepAcc a (.prep n)) := by
  cases hg : prepareGuard a n with
  | false =>
    intro pr hpr
    simp [stepAcc, prepare, hg] at hpr ⊢
    exact hinv pr hpr
  | true =>
    intro pr hpr
    simp [stepAcc, prepare, hg] at hpr ⊢
    obtain ⟨p, hp, hle⟩ := hinv pr hpr
    have hlt : pnLt p n = true := by
      simp [prepareGuard, hp] at hg
      exact hg
    exact pnLe_trans hle (pnLe_of_pnLt hlt)

theorem stepAccept_inv {V : Type} (a : AcceptorState V) (n : ProposalNumber)
    (v : Option V) (hinv : AccInvA1 a)
    (hgood : ∃ m, a.highest_prepare = some m ∧ pnLe n m = true) :
    AccInvA1 (stepAcc a (.acc n v)) := by
  obtain ⟨m, hm, hnm⟩ := hgood
  cases hg : acceptGuard a n with
  | false =>
    intro pr hpr
    simp [stepAcc, accept, hg] at hpr ⊢
    exact hinv pr hpr
  | true =>
    rintro ⟨pn, pv⟩ hpr
    simp [stepAcc, accept, hg] at hpr ⊢
    refine ⟨m, hm, ?_⟩
    rw [← hpr.1]
    exact hnm

/-- C4 amended: invariant A1 holds along every trace in which each accept
call carries a number that the acceptor has already promised at least as
high as: starting from a state satisfying A1, after any such finite
sequence of prepare and accept calls, whenever both fields are set the
accepted number is at most the promised number.  (Unconstrained traces can
violate A1 because accept never raises highest_prepare.) -/
theorem c4_invariant_a1 {V : Type} (a : AcceptorState V) (es : List (AccEvent V))
    (hinv : AccInvA1 a) (hg : GoodTrace a es) : AccInvA1 (runAcc a es) := by
  induction es generalizing a with
  | nil => exact hinv
  | cons e es ih =>
    cases e with
    | prep n =>
      have hg2 : GoodTrace (stepAcc a (.prep n)) es := hg
      exact ih (stepAcc a (.prep n)) (stepPrep_inv a n hinv) hg2
    | acc n v =>
      obtain ⟨hgood, hg2⟩ := hg
      exact ih (stepAcc a (.acc n v)) (stepAccept_inv a n v hinv hgood) hg2

/-- C4 witness: a fresh acceptor, a prepare (2, 1) followed by the matching
accept (2, 1), is a well-formed trace and ends in a state satisfying A1. -/
theorem c4_witness :
    AccInvA1 (runAcc (⟨10, none, none⟩ : AcceptorState String)
      [AccEvent.prep ⟨2, 1⟩, AccEvent.acc ⟨2, 1⟩ (some "A")]) :=
  c4_invariant_a1 _ _ (fun _ hpr => nomatch hpr) ⟨⟨⟨2, 1⟩, rfl, rfl⟩, trivial⟩

theorem prevPairs_cons_none {V : Type} {p : Msg V} (ps : List (Msg V))
    (h : p.prev_accepted = none) : prevPairs (p :: ps) = prevPairs ps := by
  simp [prevPairs, List.filterMap_cons, h]

theorem prevPairs_cons_some {V : Type} {p : Msg V} (ps : List (Msg V))
    {pr : Nat × Option V} (h : p.prev_accepted = some pr) :
    prevPairs (p :: ps) = pr :: prevPairs ps := by
  simp [prevPairs, List.filterMap_cons, h]

theorem chooseLoop_const {V : Type} (P : List (Msg V)) (h : Int) (hv : Option V)
    (hall : ∀ q ∈ prevPairs P, (q.1 : Int) ≤ h) :
    chooseLoop P h hv = (h, hv) := by
  induction P generalizing h hv with
  | nil => rfl
  | cons p ps ih =>
    cases hpa : p.prev_accepted with
    | none =>
      rw [prevPairs_cons_none ps hpa] at hall
      simp only [chooseLoop, hpa]
      exact ih h hv hall
    | some pr =>
      obtain ⟨pn, pv⟩ := pr
      rw [prevPairs_cons_some ps hpa] at hall
      have hle : (pn : Int) ≤ h := hall (pn, pv) (List.mem_cons_self _ _)
      simp only [chooseLoop, hpa, if_neg (not_lt.mpr hle)]
      exact ih h hv (fun q hq => hall q (List.mem_cons_of_mem _ hq))

theorem chooseLoop_max {V : Type} (P : List (Msg V)) (m : Nat) (w : Option V) :
    ∀ (h : Int) (hv : Option V),
    (∃ q ∈ prevPairs P, q.1 = m) →
    (∀ q ∈ prevPairs P, q.1 ≤ m) →
    (∀ q ∈ prevPairs P, q.1 = m → q.2 = w) →
    h < (m : Int) →
    (chooseLoop P h hv).2 = w := by
  induction P with
  | nil =>
    intro h hv hex _ _ _
    obtain ⟨q, hq, _⟩ := hex
    simp [prevPairs] at hq
  | cons p ps ih =>
    intro h hv hex hmax hval hlt
    cases hpa : p.prev_accepted with
    | none =>
      rw [prevPairs_cons_none ps hpa] at hex hmax hval
      simp only [chooseLoop, hpa]
      exact ih h hv hex hmax hval hlt
    | some pr =>
      obtain ⟨pn, pv⟩ := pr
      rw [prevPairs_cons_some ps hpa] at hex hmax hval
      have hmax2 : ∀ q ∈ prevPairs ps, q.1 ≤ m :=
        fun q hq => hmax q (List.mem_cons_of_mem _ hq)
      have hval2 : ∀ q ∈ prevPairs ps, q.1 = m → q.2 = w :=
        fun q hq => hval q (List.mem_cons_of_mem _ hq)
      simp only [chooseLoop, hpa]
      by_cases hc : h < (pn : Int)
      · rw [if_pos hc]
        by_cases hm : pn = m
        · have hw : pv = w := hval (pn, pv) (List.mem_cons_self _ _) hm
          have hrest : ∀ q ∈ prevPairs ps, (q.1 : Int) ≤ (pn : Int) := by
            intro q hq
            have := hmax2 q hq
            omega
          rw [chooseLoop_const ps (pn : Int) pv hrest, hw]
        · have hex2 : ∃ q ∈ prevPairs ps, q.1 = m := by
            obtain ⟨q, hq, hqm⟩ := hex
            cases List.mem_cons.mp hq with
            | inl hh =>
              exfalso
              apply hm
              rw [hh] at hqm
              exact hqm
            | inr ht => exact ⟨q, ht, hqm⟩
          have hlt2 : (pn : Int) < (m : Int) := by
            have := hmax (pn, pv) (List.mem_cons_self _ _)
            omega
          exact ih (pn : Int) pv hex2 hmax2 hval2 hlt2
      · rw [if_neg hc]
        have hex2 : ∃ q ∈ prevPairs ps, q.1 = m := by
          obtain ⟨q, hq, hqm⟩ := hex
          cases List.mem_cons.mp hq with
          | inl hh =>
            exfalso
            rw [hh] at hqm
            have hqm2 : pn = m := hqm
            omega
          | inr ht => exact ⟨q, ht, hqm⟩
        exact ih h hv hex2 hmax2 hval2 hlt

/-- C1 counterexample: with two promises reporting pairs that tie at the
maximum number 3 with distinct values X and Y, the code keeps the first
pair, so the Phase 2 value is X even though Y is also reported under the
maximum number, contradicting the claim that whenever some acceptor reports
a value under the maximum number the Phase 2 value equals that value. -/
theorem c1_counterexample :
    chooseValue (some "C") tiePromises = some "X" ∧
    (3, some "Y") ∈ prevPairs tiePromises ∧
    (∀ q ∈ prevPairs tiePromises, q.1 ≤ 3) ∧
    (some "X" : Option String) ≠ some "Y" := by
  refine ⟨rfl, by decide, by decide, by decide⟩

/-- C1 amended: among the promises carrying a previously accepted pair, the
code keeps the first pair in list order attaining the maximum reported
number; in particular, whenever every pair reported at the maximum number m
carries the same non-None value v, the Phase 2 value equals v, overriding
the candidate.  (With no reported pair the candidate is used unchanged, and
ties at the maximum are broken in favour of the earliest promise.) -/
theorem c1_value_selection {V : Type} (orig : Option V) (P : List (Msg V))
    (m : Nat) (v : V)
    (hex : ∃ q ∈ prevPairs P, q.1 = m)
    (hmax : ∀ q ∈ prevPairs P, q.1 ≤ m)
    (hval : ∀ q ∈ prevPairs P, q.1 = m → q.2 = some v) :
    chooseValue orig P = some v := by
  have hres := chooseLoop_max P m (some v) (-1) none hex hmax hval (by omega)
  simp [chooseValue, hres]

/-- C1 witness: a quorum where one acceptor reports (2, A) and another
reports the lower pair (1, B) makes the proposer switch its candidate C to
A. -/
theorem c1_witness :
    chooseValue (some "C")
      [⟨"PROMISE", 10, 0, 9, none, some (2, some "A")⟩,
       ⟨"PROMISE", 11, 0, 9, none, none⟩,
       ⟨"PROMISE", 12, 0, 9, none, some (1, some "B")⟩] = some "A" :=
  c1_value_selection (some "C") _ 2 "A" ⟨(2, some "A"), by decide, rfl⟩
    (by decide) (by decide)

/-- C10: when the pair selected as highest-numbered carries the value None
(every pair reported at the maximum number m is (m, None)), the function
falls back to the original candidate value: a previously accepted None is
indistinguishable from no previously accepted value. -/
theorem c10_none_value {V : Type} (orig : Option V) (P : List (Msg V)) (m : Nat)
    (hex : ∃ q ∈ prevPairs P, q.1 = m)
    (hmax : ∀ q ∈ prevPairs P, q.1 ≤ m)
    (hval : ∀ q ∈ prevPairs P, q.1 = m → q.2 = none) :
    chooseValue orig P = orig := by
  have hres := chooseLoop_max P m none (-1) none hex hmax hval (by omega)
  simp [chooseValue, hres]

/-- C10 witness: a reported pair (2, None) above a pair (1, B) makes the
proposer keep its candidate C. -/
theorem c10_witness :
    chooseValue (some "C")
      [⟨"PROMISE", 10, 0, 9, none, some (2, none)⟩,
       ⟨"PROMISE", 11, 0, 9, none, some (1, some "B")⟩] = some "C" :=
  c10_none_value (some "C") _ 2 ⟨(2, none), by decide, rfl⟩ (by decide) (by decide)

theorem countVal_append_single {V : Type} [DecidableEq V] (m : List (Nat × V))
    (aid : Nat) (w v : V) :
    countVal (m ++ [(aid, w)]) v = countVal m v + (if w = v then 1 else 0) := by
  by_cases h : w = v <;> simp [countVal, List.filter_append, List.filter_cons, h]

theorem countVal_pos_key {V : Type} [DecidableEq V] {m : List (Nat × V)} {v : V}
    (h : 0 < countVal m v) : ∃ p ∈ m, p.2 = v := by
  unfold countVal at h
  cases hf : m.filter (fun p => p.2 == v) with
  | nil => rw [hf] at h; simp at h
  | cons p ps =>
    have hp : p ∈ m.filter (fun p => p.2 == v) := by rw [hf]; exact List.mem_cons_self _ _
    rw [List.mem_filter] at hp
    exact ⟨p, hp.1, by simpa using hp.2⟩

theorem bumpCount_ok {V : Type} [DecidableEq V] {m : List (Nat × V)}
    {cs : List (V × Nat)} (hok : CountsOk m cs) (aid : Nat) (w : V) :
    CountsOk (m ++ [(aid, w)]) (bumpCount cs w) := by
  obtain ⟨hmem, hex, hnd⟩ := hok
  unfold bumpCount
  by_cases hany : cs.any (fun c => c.1 == w) = true
  · rw [if_pos hany]
    refine ⟨?_, ?_, ?_⟩
    · intro vc hvc
      rw [List.mem_map] at hvc
      obtain ⟨c, hc, hfc⟩ := hvc
      obtain ⟨h1, h2⟩ := hmem c hc
      by_cases hcw : c.1 = w
      · rw [if_pos (by simpa using hcw)] at hfc
        rw [← hfc]
        refine ⟨?_, by show 0 < c.2 + 1; omega⟩
        show c.2 + 1 = countVal (m ++ [(aid, w)]) c.1
        rw [countVal_append_single, if_pos hcw.symm]
        omega
      · rw [if_neg (by simpa using hcw)] at hfc
        rw [← hfc]
        refine ⟨?_, h2⟩
        show c.2 = countVal (m ++ [(aid, w)]) c.1
        rw [countVal_append_single, if_neg (fun h => hcw h.symm)]
        omega
    · intro v hv
      by_cases hvw : v = w
      · rw [List.any_eq_true] at hany
        obtain ⟨c, hc, hcw⟩ := hany
        rw [beq_iff_eq] at hcw
        refine ⟨c.2 + 1, ?_⟩
        rw [List.mem_map]
        refine ⟨c, hc, ?_⟩
        rw [if_pos (by simpa using hcw), hvw, hcw]
      · rw [countVal_append_single, if_neg (fun h => hvw h.symm)] at hv
        obtain ⟨c, hc⟩ := hex v (by omega)
        refine ⟨c, ?_⟩
        rw [List.mem_map]
        refine ⟨(v, c), hc, ?_⟩
        rw [if_neg (by simpa using hvw)]
    · have hkeys : (cs.map (fun c => if c.1 == w then (c.1, c.2 + 1) else c)).map
          Prod.fst = cs.map Prod.fst := by
        rw [List.map_map]
        apply List.map_congr_left
        intro c _
        by_cases hcw : c.1 = w <;> simp [hcw]
      rw [hkeys]
      exact hnd
  · rw [if_neg hany]
    have hnone : ∀ c ∈ cs, c.1 ≠ w := by
      intro c hc hcw
      exact hany (List.any_eq_true.mpr ⟨c, hc, by simpa using hcw⟩)
    have hw0 : countVal m w = 0 := by
      by_contra h0
      obtain ⟨c, hc⟩ := hex w (Nat.pos_of_ne_zero h0)
      exact hnone (w, c) hc rfl
    refine ⟨?_, ?_, ?_⟩
    · intro vc hvc
      rw [List.mem_append] at hvc
      cases hvc with
      | inl hold =>
        obtain ⟨h1, h2⟩ := hmem vc hold
        refine ⟨?_, h2⟩
        rw [countVal_append_single, if_neg (fun h => hnone vc hold h.symm)]
        omega
      | inr hnew =>
        rw [List.mem_singleton] at hnew
        rw [hnew]
        refine ⟨?_, by omega⟩
        rw [countVal_append_single, if_pos rfl]
        simp [hw0]
    · intro v hv
      rw [countVal_append_single] at hv
      by_cases hvw : v = w
      · exact ⟨1, List.mem_append.mpr (Or.inr (by rw [hvw]; exact List.mem_singleton_self _))⟩
      · rw [if_neg (fun h => hvw h.symm)] at hv
        obtain ⟨c, hc⟩ := hex v (by omega)
        exact ⟨c, List.mem_append.mpr (Or.inl hc)⟩
    · rw [List.map_append]
      rw [List.nodup_append]
      refine ⟨hnd, List.nodup_singleton _, ?_⟩
      intro k hk hk1
      rw [List.mem_map] at hk
      obtain ⟨c, hc, hck⟩ := hk
      simp at hk1
      exact hnone c hc (by rw [hck, hk1])

theorem buildCountsAux_ok {V : Type} [DecidableEq V] :
    ∀ (rest m : List (Nat × V)) (cs : List (V × Nat)), CountsOk m cs →
    CountsOk (m ++ rest) (rest.foldl (fun cs p => bumpCount cs p.2) cs) := by
  intro rest
  induction rest with
  | nil => intro m cs h; simpa using h
  | cons p ps ih =>
    intro m cs h
    have step := bumpCount_ok h p.1 p.2
    have := ih (m ++ [(p.1, p.2)]) (bumpCount cs p.2) step
    rw [List.append_assoc] at this
    simpa using this

theorem countsOk_buildCounts {V : Type} [DecidableEq V] (m : List (Nat × V)) :
    CountsOk m (buildCounts m) := by
  have h0 : CountsOk ([] : List (Nat × V)) [] := by
    refine ⟨by simp, ?_, by simp⟩
    intro v hv
    simp [countVal] at hv
  have := buildCountsAux_ok m [] [] h0
  simpa [buildCounts] using this

theorem getConsensus_some {V : Type} [DecidableEq V] {m : List (Nat × V)}
    {n : Nat} {v : V} (h : getConsensus m n = some v) :
    n / 2 + 1 ≤ countVal m v := by
  unfold getConsensus at h
  split at h
  · simp at h
  · cases hf : (m.foldl (fun cs p => bumpCount cs p.2) []).find?
        (fun c => decide (n / 2 + 1 ≤ c.2)) with
    | none =>
      rw [show buildCounts m = m.foldl (fun cs p => bumpCount cs p.2) [] from rfl,
        hf] at h
      simp at h
    | some c =>
      rw [show buildCounts m = m.foldl (fun cs p => bumpCount cs p.2) [] from rfl,
        hf] at h
      simp at h
      have hmem := List.mem_of_find?_eq_some hf
      have hpred := List.find?_some hf
      rw [decide_eq_true_eq] at hpred
      have hc := (countsOk_buildCounts m).1 c hmem
      rw [← h, ← hc.1]
      exact hpred

theorem getConsensus_none {V : Type} [DecidableEq V] {m : List (Nat × V)}
    {n : Nat} (h : getConsensus m n = none) (v : V) :
    countVal m v < n / 2 + 1 := by
  by_contra hge
  rw [not_lt] at hge
  have hpos : 0 < countVal m v := by omega
  obtain ⟨c, hc⟩ := (countsOk_buildCounts m).2.1 v hpos
  have hcv := (countsOk_buildCounts m).1 (v, c) hc
  unfold getConsensus at h
  split at h
  · rename_i hemp
    rw [List.isEmpty_iff] at hemp
    rw [hemp] at hpos
    simp [countVal] at hpos
  · cases hf : (m.foldl (fun cs p => bumpCount cs p.2) []).find?
        (fun c => decide (n / 2 + 1 ≤ c.2)) with
    | some c2 =>
      rw [show buildCounts m = m.foldl (fun cs p => bumpCount cs p.2) [] from rfl,
        hf] at h
      simp at h
    | none =>
      have := List.find?_eq_none.mp hf (v, c) hc
      rw [decide_eq_true_eq] at this
      have h1 := hcv.1
      simp at h1 this
      omega

theorem countVal_cons {V : Type} [DecidableEq V] (p : Nat × V)
    (ps : List (Nat × V)) (v : V) :
    countVal (p :: ps) v = (if p.2 = v then 1 else 0) + countVal ps v := by
  by_cases h : p.2 = v
  · simp [countVal, List.filter_cons, h]
    omega
  · simp [countVal, List.filter_cons, h]

theorem countVal_add_le {V : Type} [DecidableEq V] (m : List (Nat × V))
    {v w : V} (hvw : v ≠ w) : countVal m v + countVal m w ≤ m.length := by
  induction m with
  | nil => simp [countVal]
  | cons p ps ih =>
    rw [countVal_cons, countVal_cons, List.length_cons]
    by_cases h1 : p.2 = v
    · rw [if_pos h1, if_neg (fun h2 => hvw (h1.symm.trans h2))]
      omega
    · rw [if_neg h1]
      by_cases h2 : p.2 = w
      · rw [if_pos h2]
        omega
      · rw [if_neg h2]
        omega

theorem learnUpd_nodup {V : Type} [DecidableEq V] {m : List (Nat × V)}
    (h : (m.map Prod.fst).Nodup) (aid : Nat) (v : V) :
    ((learnUpd m aid v).map Prod.fst).Nodup := by
  unfold learnUpd
  by_cases hany : m.any (fun p => p.1 == aid) = true
  · rw [if_pos hany]
    have hkeys : ((m.map fun p => if p.1 == aid then (aid, v) else p).map Prod.fst)
        = m.map Prod.fst := by
      rw [List.map_map]
      apply List.map_congr_left
      intro p _
      by_cases hp : p.1 = aid <;> simp [hp]
    rw [hkeys]
    exact h
  · rw [if_neg hany]
    have hnone : ∀ p ∈ m, p.1 ≠ aid := by
      intro p hp hpa
      exact hany (List.any_eq_true.mpr ⟨p, hp, by simpa using hpa⟩)
    rw [List.map_append, List.nodup_append]
    refine ⟨h, by simp, ?_⟩
    intro k hk hk1
    rw [List.mem_map] at hk
    obtain ⟨p, hp, hpk⟩ := hk
    simp at hk1
    exact hnone p hp (by rw [hpk, hk1])

theorem buildMapAux_nodup {V : Type} [DecidableEq V] :
    ∀ (calls m : List (Nat × V)), (m.map Prod.fst).Nodup →
    (((calls.foldl (fun m c => learnUpd m c.1 c.2) m)).map Prod.fst).Nodup := by
  intro calls
  induction calls with
  | nil => intro m h; simpa using h
  | cons c cs ih => intro m h; exact ih (learnUpd m c.1 c.2) (learnUpd_nodup h c.1 c.2)

theorem buildMap_nodup {V : Type} [DecidableEq V] (calls : List (Nat × V)) :
    ((buildMap calls).map Prod.fst).Nodup :=
  buildMapAux_nodup calls [] (by simp)

/-- C8 counterexample: after learn calls from four distinct acceptors, two
reporting a and two reporting b, get_consensus with total 3 returns a even
though b also reaches the majority threshold 2, so the stated equivalence
(a value is returned iff its count reaches majority) fails for b. -/
theorem c8_counterexample :
    getConsensus (buildMap [(1, "a"), (2, "a"), (3, "b"), (4, "b")]) 3 = some "a" ∧
    3 / 2 + 1 ≤ countVal (buildMap [(1, "a"), (2, "a"), (3, "b"), (4, "b")]) "b" ∧
    ("a" : String) ≠ "b" :=
  ⟨rfl, by decide, by decide⟩

/-- C8 amended: for a Learner map built by learn calls, provided the map
holds at most n acceptors (each acceptor occupies one key, and the keys are
distinct), get_consensus n returns value v exactly when the number of
acceptors mapped to v reaches the majority floor of n over 2 plus 1; in all
other cases, including the empty map, no value is returned. -/
theorem c8_consensus_iff {V : Type} [DecidableEq V] (calls : List (Nat × V))
    (n : Nat) (v : V) (hlen : (buildMap calls).length ≤ n) :
    (getConsensus (buildMap calls) n = some v ↔
      n / 2 + 1 ≤ countVal (buildMap calls) v) ∧
    ((buildMap calls).map Prod.fst).Nodup := by
  refine ⟨⟨getConsensus_some, ?_⟩, buildMap_nodup calls⟩
  intro hge
  cases hc : getConsensus (buildMap calls) n with
  | none => exact absurd hge (not_le.mpr (getConsensus_none hc v))
  | some w =>
    have hw := getConsensus_some hc
    by_cases hvw : w = v
    · rw [hvw]
    · exfalso
      have hsum := countVal_add_le (buildMap calls) (fun h => hvw h.symm)
      omega

/-- C8 witness: three acceptors observed, two reporting a, total 3: the
majority threshold 2 is met and get_consensus returns a. -/
theorem c8_witness :
    getConsensus (buildMap [(1, "a"), (2, "a"), (3, "b")]) 3 = some "a" :=
  (c8_consensus_iff [(1, "a"), (2, "a"), (3, "b")] 3 "a" (by decide)).1.mpr (by decide)

end Paxos
